import Mathlib

/-!
Shallow embedding of `src/bbax/fem_1d.py`: the 1D PN finite-element
assembly subsystem (DOF numbering, local operators, the moment-coupled
global assembly loop, the reflective and Marshak boundary-condition
enforcers, and the Legendre projection matrix used by Marshak).

Real numbers of the Python/numpy code are modelled by `ℚ`.  Arrays are
modelled by total functions on `ℕ` (the Python code only ever reads them
at in-range indices, so the out-of-range values are never relevant).
The `scipy` sparse matrix `A` (resp. vector `b`) is a function
`ℕ → ℕ → ℚ` (resp. `ℕ → ℚ`), initially zero; the assembly loop is
embedded as the list of `+=` increments it performs, in program order,
folded over the zero matrix.  External numeric collaborators (the basix
basis tabulation consumed by `assemble_matrix`, and `numpy.leggauss`
consumed by `_legendre_coeff_matrix`) enter as function-valued inputs,
exactly as their outputs enter the Python routines.
-/

namespace BBax

/-- A matrix entry state: row index, column index to rational value. -/
abbrev Mat : Type := ℕ → ℕ → ℚ

/-- A vector state: row index to rational value. -/
abbrev Vec : Type := ℕ → ℚ

/-- Inputs of `assemble_matrix` (plus the basix tabulation data that the
Python function obtains from `element.tabulate` and `basix.make_quadrature`):
`num_vertices = len(nodes)`, `nodes` the node coordinates, per-element
`sigma_t`, per-element-per-moment `sigma_s`, per-element source matrix
`q[i][k][local_dof]`, the truncation order `N_max`, the per-element DOF
count `dof_elem = element.dim`, and the quadrature tabulation
(`nq` points, `weights`, basis values `phi` and derivatives `dphi`,
each indexed by quadrature point then basis index). -/
structure AssemblyInput where
  num_vertices : ℕ
  nodes : ℕ → ℚ
  sigma_t : ℕ → ℚ
  sigma_s : ℕ → ℕ → ℚ
  q : ℕ → ℕ → ℕ → ℚ
  N_max : ℕ
  dof_elem : ℕ
  nq : ℕ
  weights : ℕ → ℚ
  phi : ℕ → ℕ → ℚ
  dphi : ℕ → ℕ → ℚ

/-- `L_tot = N_max + 1` from `assemble_matrix`. -/
def L_tot (inp : AssemblyInput) : ℕ := inp.N_max + 1

/-- `n_elem = len(nodes) - 1` from `assemble_matrix`. -/
def n_elem (inp : AssemblyInput) : ℕ := inp.num_vertices - 1

/-- `mass_matrix[i,j] = Σ_q weights[q] * phi[q,i] * phi[q,j]`
(`np.tensordot(weights, np.einsum('qi,qj->qij', phi, phi), ...)`). -/
def mass_matrix (inp : AssemblyInput) (i j : ℕ) : ℚ :=
  ∑ qp ∈ Finset.range inp.nq, inp.weights qp * (inp.phi qp i * inp.phi qp j)

/-- `local_streaming[i,j] = Σ_q weights[q] * dphi[q,i] * phi[q,j]`
(`np.tensordot(weights, np.einsum("qi, qj->qij", dphi, phi), ...)`). -/
def local_streaming (inp : AssemblyInput) (i j : ℕ) : ℚ :=
  ∑ qp ∈ Finset.range inp.nq, inp.weights qp * (inp.dphi qp i * inp.phi qp j)

/-- Element width `h = nodes[i+1] - nodes[i]`. -/
def h_elem (inp : AssemblyInput) (i : ℕ) : ℚ := inp.nodes (i + 1) - inp.nodes i

/-- Row `e` of the table built by `create_dof_matrix_vertex_interior`:
`dof_matrix[e, :] = [e, e+1] + list(range(start_interior, start_interior + num_interior))`
with `start_interior = num_vertices + e * num_interior` and
`num_interior = dof - 2`; entry `l` of that row. -/
def dof_matrix_entry (dof num_vertices e l : ℕ) : ℕ :=
  if l = 0 then e
  else if l = 1 then e + 1
  else num_vertices + e * (dof - 2) + (l - 2)

/-- The second return value of `create_dof_matrix_vertex_interior`:
`num_interior * n_elem + num_vertices`. -/
def num_global_dofs (dof num_vertices : ℕ) : ℕ :=
  (dof - 2) * (num_vertices - 1) + num_vertices

/-- `dof_matrix[i, li]` inside `assemble_matrix`. -/
def dofm (inp : AssemblyInput) (e l : ℕ) : ℕ :=
  dof_matrix_entry inp.dof_elem inp.num_vertices e l

/-- `n_global_dofs` inside `assemble_matrix`. -/
def n_global (inp : AssemblyInput) : ℕ :=
  num_global_dofs inp.dof_elem inp.num_vertices

/-- `total_dof(element_i, local_i, k) = dof_matrix[element_i, local_i] + k * n_global_dofs`. -/
def total_dof (inp : AssemblyInput) (i li k : ℕ) : ℕ :=
  dofm inp i li + k * n_global inp

/-- `A_local[li, lj] = (sigma_t[i] - sigma_s[i][k]) * mass_matrix[li, lj] * h`. -/
def A_local (inp : AssemblyInput) (k i li lj : ℕ) : ℚ :=
  (inp.sigma_t i - inp.sigma_s i k) * mass_matrix inp li lj * h_elem inp i

/-- `s_local[li, k] = Σ_lj (mass_matrix * h)[li, lj] * q[i][k, lj]`
(the einsum `"ij,kj -> ik"` applied to `mass_matrix * h` and `q[i]`). -/
def s_local (inp : AssemblyInput) (i li k : ℕ) : ℚ :=
  ∑ lj ∈ Finset.range inp.dof_elem,
    mass_matrix inp li lj * h_elem inp i * inp.q i k lj

/-- One `+=` increment to the global matrix: (row, column, added value). -/
abbrev UpdA : Type := ℕ × ℕ × ℚ

/-- Apply one `A[r, c] += v` increment. -/
def addA (M : Mat) (u : UpdA) : Mat :=
  fun r c => if r = u.1 ∧ c = u.2.1 then M r c + u.2.2 else M r c

/-- Apply a list of `+=` increments to `A`, in order. -/
def applyA (M : Mat) (us : List UpdA) : Mat := us.foldl addA M

/-- Apply one `b[r] += v` increment. -/
def addb (b : Vec) (u : ℕ × ℚ) : Vec :=
  fun r => if r = u.1 then b r + u.2 else b r

/-- Apply a list of `+=` increments to `b`, in order. -/
def applyb (b : Vec) (us : List (ℕ × ℚ)) : Vec := us.foldl addb b

/-- The `A` increments performed by the innermost body of the assembly
loop at moment `k`, element `i`, local indices `local_i = li`,
`local_j = lj`: the collision increment into the `(k, k)` block, then
(guarded by `k != L_tot - 1`) the streaming increment into the
`(k, k+1)` block with coefficient `(k+1)/(2k+1)`, then (guarded by
`k != 0`) the streaming increment into the `(k, k-1)` block with
coefficient `k/(2k+1)`. -/
def iterA (inp : AssemblyInput) (k i li lj : ℕ) : List UpdA :=
  [(total_dof inp i li k, total_dof inp i lj k, A_local inp k i li lj)]
  ++ (if k ≠ L_tot inp - 1 then
        [(total_dof inp i li k, total_dof inp i lj (k + 1),
          local_streaming inp li lj * ((k : ℚ) + 1) / (2 * (k : ℚ) + 1))]
      else [])
  ++ (if k ≠ 0 then
        [(total_dof inp i li k, total_dof inp i lj (k - 1),
          local_streaming inp li lj * (k : ℚ) / (2 * (k : ℚ) + 1))]
      else [])

/-- All `A` increments of the assembly loop, in program order:
`for k in range(L_tot): for i in range(n_elem): for local_i: for local_j: ...`. -/
def updatesA (inp : AssemblyInput) : List UpdA :=
  (List.range (L_tot inp)).flatMap fun k =>
    (List.range (n_elem inp)).flatMap fun i =>
      (List.range inp.dof_elem).flatMap fun li =>
        (List.range inp.dof_elem).flatMap fun lj =>
          iterA inp k i li lj

/-- All `b` increments of the assembly loop, in program order:
`b[total_dof(i, local_i, k), 0] += s_local[local_i, k]`. -/
def updatesb (inp : AssemblyInput) : List (ℕ × ℚ) :=
  (List.range (L_tot inp)).flatMap fun k =>
    (List.range (n_elem inp)).flatMap fun i =>
      (List.range inp.dof_elem).map fun li =>
        (total_dof inp i li k, s_local inp i li k)

/-- The assembled global matrix `A` (before boundary conditions):
all loop increments applied to the all-zero `lil_matrix`. -/
def assembleA (inp : AssemblyInput) : Mat :=
  applyA (fun _ _ => 0) (updatesA inp)

/-- The assembled right-hand side `b` (before boundary conditions). -/
def assembleb (inp : AssemblyInput) : Vec :=
  applyb (fun _ => 0) (updatesb inp)

/-- `A[row, :] = 0`. -/
def set_row_zero (A : Mat) (row : ℕ) : Mat :=
  fun r c => if r = row then 0 else A r c

/-- `A[row, col] = v` (overwrite, not accumulate). -/
def set_entry (A : Mat) (row col : ℕ) (v : ℚ) : Mat :=
  fun r c => if r = row ∧ c = col then v else A r c

/-- `b[row, 0] = v` (overwrite). -/
def set_vec (b : Vec) (row : ℕ) (v : ℚ) : Vec :=
  fun r => if r = row then v else b r

/-- `range(1, L_tot, 2)`: the odd moments below `L`. -/
def odd_moments (L : ℕ) : List ℕ :=
  (List.range L).filter fun k => k % 2 == 1

/-- One iteration of the loop in `_apply_reflective_bc`: for moment `k`,
overwrite the left boundary row with the identity row and zero its `b`
entry, then do the same at the right boundary. -/
def reflStep (ng ld rd : ℕ) (st : Mat × Vec) (k : ℕ) : Mat × Vec :=
  let rowL := ld + k * ng
  let A1 := set_entry (set_row_zero st.1 rowL) rowL rowL 1
  let b1 := set_vec st.2 rowL 0
  let rowR := rd + k * ng
  let A2 := set_entry (set_row_zero A1 rowR) rowR rowR 1
  let b2 := set_vec b1 rowR 0
  (A2, b2)

/-- `_apply_reflective_bc(A, b, n_global_dofs, L_tot, left_dof, right_dof)`. -/
def apply_reflective_bc (A : Mat) (b : Vec) (ng L ld rd : ℕ) : Mat × Vec :=
  (odd_moments L).foldl (reflStep ng ld rd) (A, b)

/-- Legendre polynomial `P_n` (what `scipy.special.legendre(n)` evaluates),
via the Bonnet three-term recurrence. -/
def legendreP : ℕ → ℚ → ℚ
  | 0, _ => 1
  | 1, x => x
  | n + 2, x =>
      ((2 * (n : ℚ) + 3) * x * legendreP (n + 1) x - ((n : ℚ) + 1) * legendreP n x)
        / ((n : ℚ) + 2)

/-- `_legendre_coeff_matrix(L_max, a, b)`: Gauss-Legendre quadrature with
`M = max(2 * L_max, 50)` points (`gn`, `gw` stand for the `numpy.leggauss(M)`
tabulation on `[-1, 1]`), transformed to `[a, b]`, of the products
`P_i(x) P_j(x)`; entry `(i, j)` of `P @ diag(w) @ P.T`. -/
def legendre_coeff_matrix (gn gw : ℕ → ℚ) (Lmax : ℕ) (a b : ℚ) : ℕ → ℕ → ℚ :=
  fun i j =>
    ∑ m ∈ Finset.range (max (2 * Lmax) 50),
      legendreP i ((1 / 2) * (gn m * (b - a) + (b + a)))
        * ((1 / 2) * (b - a) * gw m)
        * legendreP j ((1 / 2) * (gn m * (b - a) + (b + a)))

/-- The inner `for l in range(L_tot)` loop of `apply_marshak_bc` for one
odd enforcement moment `ei`: for each `l` set the two entries
`A[enforce_row_left, left_dof + l*ng]` and `A[enforce_row_right, rd + l*ng]`. -/
def marshak_inner (coeffL coeffR : ℕ → ℕ → ℚ) (ng ld rd ei : ℕ)
    (A : Mat) (ls : List ℕ) : Mat :=
  ls.foldl
    (fun Acur l =>
      set_entry
        (set_entry Acur (ld + ei * ng) (ld + l * ng)
          (coeffL ei l * (2 * (l : ℚ) + 1)))
        (rd + ei * ng) (rd + l * ng)
        (coeffR ei l * (2 * (l : ℚ) + 1)))
    A

/-- One iteration of the `for enforce_i in range(1, L_tot, 2)` loop of
`apply_marshak_bc`: zero both enforcement rows of `A` and both `b`
entries, then run the inner `l` loop of entry overwrites. -/
def marshakStep (coeffL coeffR : ℕ → ℕ → ℚ) (ng L ld rd : ℕ)
    (st : Mat × Vec) (ei : ℕ) : Mat × Vec :=
  let rowL := ld + ei * ng
  let rowR := rd + ei * ng
  let A0 := set_row_zero (set_row_zero st.1 rowL) rowR
  let b0 := set_vec (set_vec st.2 rowL 0) rowR 0
  (marshak_inner coeffL coeffR ng ld rd ei A0 (List.range L), b0)

/-- `apply_marshak_bc(A, b, n_global_dofs, L_tot, left_dof, right_dof)`;
`left_coeff_matrix = _legendre_coeff_matrix(L_tot, 0, 1)` and
`right_coeff_matrix = _legendre_coeff_matrix(L_tot, -1, 0)`. -/
def apply_marshak_bc (A : Mat) (b : Vec) (ng L ld rd : ℕ) (gn gw : ℕ → ℚ) :
    Mat × Vec :=
  (odd_moments L).foldl
    (marshakStep (legendre_coeff_matrix gn gw L 0 1)
      (legendre_coeff_matrix gn gw L (-1) 0) ng L ld rd)
    (A, b)

/-- `assemble_matrix(element, nodes, sigma_t, sigma_s, q, N_max, bc)`:
reject even `N_max` up front, assemble `A` and `b`, then dispatch on the
`bc` string (`left_dof = 0`, `right_dof = nodes.shape[0] - 1`), rejecting
an unknown value.  Raised `ValueError`s are modelled by `Except.error`
carrying the message. -/
def assemble_matrix (inp : AssemblyInput) (bc : String) (gn gw : ℕ → ℚ) :
    Except String (Mat × Vec) :=
  if inp.N_max % 2 = 0 then
    Except.error ("N_max must be odd for this implementation.")
  else if bc = "reflective" then
    Except.ok (apply_reflective_bc (assembleA inp) (assembleb inp)
      (n_global inp) (L_tot inp) 0 (inp.num_vertices - 1))
  else if bc = "marshak" then
    Except.ok (apply_marshak_bc (assembleA inp) (assembleb inp)
      (n_global inp) (L_tot inp) 0 (inp.num_vertices - 1) gn gw)
  else
    Except.error ("Unknown boundary condition: " ++ bc ++
      ". Supported: \x27reflective\x27, \x27marshak\x27.")

/-!  Generic lemmas about the increment machinery.  -/

/-- Sum of the increments in `us` that target entry `(r, c)`. -/
def incSumA (r c : ℕ) (us : List UpdA) : ℚ :=
  ((us.filter fun u => u.1 == r && u.2.1 == c).map fun u => u.2.2).sum

/-- Sum of the increments in `us` that target row `r` of `b`. -/
def incSumb (r : ℕ) (us : List (ℕ × ℚ)) : ℚ :=
  ((us.filter fun u => u.1 == r).map fun u => u.2).sum

lemma incSumA_cons (r c : ℕ) (u : UpdA) (us : List UpdA) :
    incSumA r c (u :: us)
      = (if u.1 = r ∧ u.2.1 = c then u.2.2 else 0) + incSumA r c us := by
  by_cases h : u.1 = r ∧ u.2.1 = c
  · simp [incSumA, List.filter_cons, h.1, h.2]
  · have hb : (u.1 == r && u.2.1 == c) = false := by
      rw [Bool.and_eq_false_iff]
      by_cases h1 : u.1 = r
      · right
        rw [beq_eq_false_iff_ne]
        exact fun h2 => h ⟨h1, h2⟩
      · left
        rw [beq_eq_false_iff_ne]
        exact h1
    simp [incSumA, List.filter_cons, hb, h]

lemma incSumb_cons (r : ℕ) (u : ℕ × ℚ) (us : List (ℕ × ℚ)) :
    incSumb r (u :: us) = (if u.1 = r then u.2 else 0) + incSumb r us := by
  by_cases h : u.1 = r
  · simp [incSumb, List.filter_cons, h]
  · have hb : (u.1 == r) = false := by
      rw [beq_eq_false_iff_ne]
      exact h
    simp [incSumb, List.filter_cons, hb, h]

lemma applyA_apply (us : List UpdA) (M : Mat) (r c : ℕ) :
    applyA M us r c = M r c + incSumA r c us := by
  induction us generalizing M with
  | nil => simp [applyA, incSumA]
  | cons u us ih =>
    have h1 : applyA M (u :: us) = applyA (addA M u) us := rfl
    rw [h1, ih, incSumA_cons]
    by_cases h : u.1 = r ∧ u.2.1 = c
    · have ha : addA M u r c = M r c + u.2.2 := by
        unfold addA
        rw [if_pos ⟨h.1.symm, h.2.symm⟩]
      rw [ha, if_pos h]
      ring
    · have ha : addA M u r c = M r c := by
        unfold addA
        rw [if_neg]
        intro hc
        exact h ⟨hc.1.symm, hc.2.symm⟩
      rw [ha, if_neg h]
      ring

lemma applyb_apply (us : List (ℕ × ℚ)) (b : Vec) (r : ℕ) :
    applyb b us r = b r + incSumb r us := by
  induction us generalizing b with
  | nil => simp [applyb, incSumb]
  | cons u us ih =>
    have h1 : applyb b (u :: us) = applyb (addb b u) us := rfl
    rw [h1, ih, incSumb_cons]
    by_cases h : u.1 = r
    · have ha : addb b u r = b r + u.2 := by
        unfold addb
        rw [if_pos h.symm]
      rw [ha, if_pos h]
      ring
    · have ha : addb b u r = b r := by
        unfold addb
        rw [if_neg]
        intro hc
        exact h hc.symm
      rw [ha, if_neg h]
      ring

lemma incSumA_append (r c : ℕ) (us vs : List UpdA) :
    incSumA r c (us ++ vs) = incSumA r c us + incSumA r c vs := by
  simp [incSumA, List.filter_append]

lemma incSumA_flatMap {α : Type} (r c : ℕ) (l : List α) (f : α → List UpdA) :
    incSumA r c (l.flatMap f) = (l.map fun x => incSumA r c (f x)).sum := by
  induction l with
  | nil => simp [incSumA]
  | cons x l ih => simp [List.flatMap_cons, incSumA_append, ih]

lemma incSumb_append (r : ℕ) (us vs : List (ℕ × ℚ)) :
    incSumb r (us ++ vs) = incSumb r us + incSumb r vs := by
  simp [incSumb, List.filter_append]

lemma incSumb_flatMap {α : Type} (r : ℕ) (l : List α) (f : α → List (ℕ × ℚ)) :
    incSumb r (l.flatMap f) = (l.map fun x => incSumb r (f x)).sum := by
  induction l with
  | nil => simp [incSumb]
  | cons x l ih => simp [List.flatMap_cons, incSumb_append, ih]

lemma range_map_sum (f : ℕ → ℚ) (n : ℕ) :
    ((List.range n).map f).sum = ∑ x ∈ Finset.range n, f x := by
  induction n with
  | zero => simp
  | succ n ih => simp [List.range_succ, Finset.sum_range_succ, ih]

/-- Uniqueness of the block decomposition `residue + block * ng`. -/
lemma block_eq {ng a b k k' : ℕ} (hng : 0 < ng) (ha : a < ng) (hb : b < ng)
    (h : a + k * ng = b + k' * ng) : a = b ∧ k = k' := by
  constructor
  · have := congrArg (· % ng) h
    simpa [Nat.add_mul_mod_self_right, Nat.mod_eq_of_lt ha, Nat.mod_eq_of_lt hb]
      using this
  · have := congrArg (· / ng) h
    simpa [Nat.add_mul_div_right _ _ hng, Nat.div_eq_of_lt ha, Nat.div_eq_of_lt hb]
      using this

lemma dof_matrix_entry_zero (dof nv e : ℕ) : dof_matrix_entry dof nv e 0 = e := rfl

lemma dof_matrix_entry_one (dof nv e : ℕ) :
    dof_matrix_entry dof nv e 1 = e + 1 := rfl

lemma dof_matrix_entry_interior (dof nv e l : ℕ) (h2 : 2 ≤ l) :
    dof_matrix_entry dof nv e l = nv + e * (dof - 2) + (l - 2) := by
  unfold dof_matrix_entry
  rw [if_neg (by omega), if_neg (by omega)]

/-- Every in-range entry of the DOF table is below the global DOF count. -/
lemma dof_matrix_entry_lt {dof nv e l : ℕ} (he : e < nv - 1) (hl : l < dof) :
    dof_matrix_entry dof nv e l < num_global_dofs dof nv := by
  unfold num_global_dofs
  by_cases h0 : l = 0
  · subst h0
    rw [dof_matrix_entry_zero]
    omega
  · by_cases h1 : l = 1
    · subst h1
      rw [dof_matrix_entry_one]
      omega
    · rw [dof_matrix_entry_interior _ _ _ _ (by omega)]
      have hkey : e * (dof - 2) + (l - 2) < (dof - 2) * (nv - 1) := by
        have he' : e + 1 ≤ nv - 1 := he
        calc e * (dof - 2) + (l - 2) < e * (dof - 2) + (dof - 2) := by omega
        _ = (e + 1) * (dof - 2) := by ring
        _ ≤ (nv - 1) * (dof - 2) := Nat.mul_le_mul_right _ he'
        _ = (dof - 2) * (nv - 1) := Nat.mul_comm _ _
      omega

/-- Which locals of which element hit a vertex index `v < nv`. -/
lemma dof_matrix_entry_eq_vertex {dof nv e l v : ℕ} (hl : l < dof) (hv : v < nv) :
    dof_matrix_entry dof nv e l = v ↔ (l = 0 ∧ v = e) ∨ (l = 1 ∧ v = e + 1) := by
  by_cases h0 : l = 0
  · subst h0
    rw [dof_matrix_entry_zero]
    omega
  · by_cases h1 : l = 1
    · subst h1
      rw [dof_matrix_entry_one]
      omega
    · rw [dof_matrix_entry_interior _ _ _ _ (by omega)]
      omega

lemma incSumA_singleton (r c a b : ℕ) (v : ℚ) :
    incSumA r c [(a, b, v)] = if a = r ∧ b = c then v else 0 := by
  rw [incSumA_cons]
  simp [incSumA]

lemma dofm_lt {inp : AssemblyInput} {i l : ℕ} (hi : i < n_elem inp)
    (hl : l < inp.dof_elem) : dofm inp i l < n_global inp :=
  dof_matrix_entry_lt hi hl

lemma n_global_pos {inp : AssemblyInput} (h : 1 ≤ inp.num_vertices) :
    0 < n_global inp := by
  unfold n_global num_global_dofs
  omega

/-- A total DOF equals `v + k' * n_global` (with `v` a valid spatial DOF)
exactly when the moment blocks and the spatial residues agree. -/
lemma total_dof_eq_block {inp : AssemblyInput} {i l k v k' : ℕ}
    (hnv : 1 ≤ inp.num_vertices) (hi : i < n_elem inp) (hl : l < inp.dof_elem)
    (hv : v < n_global inp) :
    total_dof inp i l k = v + k' * n_global inp ↔ dofm inp i l = v ∧ k = k' := by
  constructor
  · intro h
    exact block_eq (n_global_pos hnv) (dofm_lt hi hl) hv h
  · rintro ⟨h1, h2⟩
    rw [total_dof, h1, h2]

lemma incSumA_iterA (inp : AssemblyInput) (k i li lj r c : ℕ) :
    incSumA r c (iterA inp k i li lj)
      = (if total_dof inp i li k = r ∧ total_dof inp i lj k = c
           then A_local inp k i li lj else 0)
      + (if k ≠ L_tot inp - 1 ∧ total_dof inp i li k = r
            ∧ total_dof inp i lj (k + 1) = c
           then local_streaming inp li lj * ((k : ℚ) + 1) / (2 * (k : ℚ) + 1)
           else 0)
      + (if k ≠ 0 ∧ total_dof inp i li k = r ∧ total_dof inp i lj (k - 1) = c
           then local_streaming inp li lj * (k : ℚ) / (2 * (k : ℚ) + 1)
           else 0) := by
  unfold iterA
  rw [incSumA_append, incSumA_append, incSumA_singleton]
  congr 1
  · congr 1
    by_cases h : k ≠ L_tot inp - 1
    · rw [if_pos h, incSumA_singleton]
      by_cases h2 : total_dof inp i li k = r ∧ total_dof inp i lj (k + 1) = c
      · rw [if_pos h2, if_pos ⟨h, h2.1, h2.2⟩]
      · rw [if_neg h2, if_neg (by tauto)]
    · rw [if_neg h, if_neg (by tauto)]
      rfl
  · by_cases h : k ≠ 0
    · rw [if_pos h, incSumA_singleton]
      by_cases h2 : total_dof inp i li k = r ∧ total_dof inp i lj (k - 1) = c
      · rw [if_pos h2, if_pos ⟨h, h2.1, h2.2⟩]
      · rw [if_neg h2, if_neg (by tauto)]
    · rw [if_neg h, if_neg (by tauto)]
      rfl

/-- The assembled matrix entry is the sum, over the whole loop nest, of
the increments that target it (the `lil_matrix` starts at zero and is
only ever changed by `+=` during assembly). -/
lemma assembleA_eq_sum (inp : AssemblyInput) (r c : ℕ) :
    assembleA inp r c
      = ∑ k ∈ Finset.range (L_tot inp), ∑ i ∈ Finset.range (n_elem inp),
          ∑ li ∈ Finset.range inp.dof_elem, ∑ lj ∈ Finset.range inp.dof_elem,
            incSumA r c (iterA inp k i li lj) := by
  unfold assembleA updatesA
  rw [applyA_apply]
  simp only [incSumA_flatMap, range_map_sum]
  exact zero_add _

/-- C3 counterexample: for the one-node mesh (`n_vertices = 1`, zero
elements) with `dof_elem = 2`, `create_dof_matrix_vertex_interior`
returns a global DOF count of 1 while the mapping table is empty, so the
union of the table's entries does not cover `range(0, n_global_dofs)`:
no element (there is none) maps any local index to global DOF 0. -/
theorem dof_mapping_union_counterexample_C3 :
    0 < num_global_dofs 2 1
      ∧ ¬ ∃ e l : ℕ, e < 1 - 1 ∧ l < 2 ∧ dof_matrix_entry 2 1 e l = 0 := by
  constructor
  · decide
  · rintro ⟨e, l, he, -, -⟩
    omega

/-- C3 (amended: for meshes with at least one element, i.e.
`n_vertices ≥ 2`): for every `dof_elem ≥ 2`, element-local indices 0 and
1 map to vertices `e` and `e+1`; locals `2..dof_elem-1` map to the
contiguous interior run `nv + e*num_interior + (l-2)`; the returned
total equals `n_vertices + n_elements * num_interior`; every global DOF
below the total is hit by some in-range table entry and every in-range
table entry is below the total (union = range); adjacent elements share
their common vertex DOF; and interior DOFs belong to a unique element
and local index. -/
theorem dof_mapping_C3 (dof nv : ℕ) (hdof : 2 ≤ dof) (hnv : 2 ≤ nv) :
    (∀ e, dof_matrix_entry dof nv e 0 = e ∧ dof_matrix_entry dof nv e 1 = e + 1)
    ∧ (∀ e l, 2 ≤ l → l < dof →
        dof_matrix_entry dof nv e l = nv + e * (dof - 2) + (l - 2))
    ∧ num_global_dofs dof nv = nv + (nv - 1) * (dof - 2)
    ∧ (∀ g, g < num_global_dofs dof nv →
        ∃ e, e < nv - 1 ∧ ∃ l, l < dof ∧ dof_matrix_entry dof nv e l = g)
    ∧ (∀ e l, e < nv - 1 → l < dof →
        dof_matrix_entry dof nv e l < num_global_dofs dof nv)
    ∧ (∀ e, e + 1 < nv - 1 →
        dof_matrix_entry dof nv e 1 = dof_matrix_entry dof nv (e + 1) 0)
    ∧ (∀ e e' l l', e < nv - 1 → e' < nv - 1 → 2 ≤ l → l < dof → 2 ≤ l' →
        l' < dof → dof_matrix_entry dof nv e l = dof_matrix_entry dof nv e' l' →
        e = e' ∧ l = l') := by
  refine ⟨fun e => ⟨rfl, rfl⟩, fun e l h2 hl => dof_matrix_entry_interior _ _ _ _ h2,
    by unfold num_global_dofs; ring, ?_, fun e l he hl => dof_matrix_entry_lt he hl,
    fun e _ => rfl, ?_⟩
  · intro g hg
    by_cases hgv : g < nv
    · by_cases hgl : g < nv - 1
      · exact ⟨g, hgl, 0, by omega, dof_matrix_entry_zero _ _ _⟩
      · refine ⟨nv - 2, by omega, 1, by omega, ?_⟩
        rw [dof_matrix_entry_one]
        omega
    · have hd2 : 0 < dof - 2 := by
        rcases Nat.eq_zero_or_pos (dof - 2) with h | h
        · exfalso
          unfold num_global_dofs at hg
          rw [h, Nat.zero_mul] at hg
          omega
        · exact h
      have hrange : g - nv < (dof - 2) * (nv - 1) := by
        unfold num_global_dofs at hg
        omega
      refine ⟨(g - nv) / (dof - 2), ?_, (g - nv) % (dof - 2) + 2, ?_, ?_⟩
      · refine (Nat.div_lt_iff_lt_mul hd2).mpr ?_
        rw [Nat.mul_comm]
        exact hrange
      · have := Nat.mod_lt (g - nv) hd2
        omega
      · rw [dof_matrix_entry_interior _ _ _ _ (by omega)]
        have hdm := Nat.div_add_mod (g - nv) (dof - 2)
        have hcomm : (g - nv) / (dof - 2) * (dof - 2)
            = (dof - 2) * ((g - nv) / (dof - 2)) := Nat.mul_comm _ _
        omega
  · intro e e' l l' he he' h2 hl h2' hl' heq
    rw [dof_matrix_entry_interior _ _ _ _ h2,
      dof_matrix_entry_interior _ _ _ _ h2'] at heq
    have hd2 : 0 < dof - 2 := by omega
    have heq' : (l - 2) + e * (dof - 2) = (l' - 2) + e' * (dof - 2) := by omega
    have hb := block_eq hd2 (by omega) (by omega) heq'
    exact ⟨hb.2, by omega⟩

/-- C1: for every moment `k ≤ N_max`, element `i`, and local index pair,
the loop body scatters the streaming matrix into the off-diagonal moment
blocks: besides the collision increment, it performs an increment at row
`dofm(i,li) + k*ng` and column `dofm(i,lj) + (k+1)*ng` of value
`streaming[li,lj] * (k+1)/(2k+1)` exactly when `k < N_max`, and one at
column `dofm(i,lj) + (k-1)*ng` of value `streaming[li,lj] * k/(2k+1)`
exactly when `k > 0`; at `k = 0` there is no `k-1` increment and at
`k = N_max` there is no `k+1` increment; the guarded increments belong
to the full assembly increment stream. -/
theorem streaming_scatter_C1 (inp : AssemblyInput) (k i li lj : ℕ)
    (hk : k ≤ inp.N_max) (hi : i < n_elem inp)
    (hli : li < inp.dof_elem) (hlj : lj < inp.dof_elem) :
    (iterA inp k i li lj
      = [(dofm inp i li + k * n_global inp, dofm inp i lj + k * n_global inp,
          A_local inp k i li lj)]
        ++ (if k < inp.N_max then
              [(dofm inp i li + k * n_global inp,
                dofm inp i lj + (k + 1) * n_global inp,
                local_streaming inp li lj * ((k : ℚ) + 1) / (2 * (k : ℚ) + 1))]
            else [])
        ++ (if 0 < k then
              [(dofm inp i li + k * n_global inp,
                dofm inp i lj + (k - 1) * n_global inp,
                local_streaming inp li lj * (k : ℚ) / (2 * (k : ℚ) + 1))]
            else []))
    ∧ (k < inp.N_max →
        (dofm inp i li + k * n_global inp, dofm inp i lj + (k + 1) * n_global inp,
          local_streaming inp li lj * ((k : ℚ) + 1) / (2 * (k : ℚ) + 1))
          ∈ updatesA inp)
    ∧ (0 < k →
        (dofm inp i li + k * n_global inp, dofm inp i lj + (k - 1) * n_global inp,
          local_streaming inp li lj * (k : ℚ) / (2 * (k : ℚ) + 1))
          ∈ updatesA inp) := by
  have g1 : (k ≠ L_tot inp - 1) = (k < inp.N_max) := by
    unfold L_tot
    apply propext
    omega
  have g2 : (k ≠ 0) = (0 < k) := by
    apply propext
    omega
  refine ⟨?_, ?_, ?_⟩
  · simp only [iterA, total_dof, g1, g2]
  · intro hkN
    refine List.mem_flatMap.mpr ⟨k, List.mem_range.mpr (by unfold L_tot; omega), ?_⟩
    refine List.mem_flatMap.mpr ⟨i, List.mem_range.mpr hi, ?_⟩
    refine List.mem_flatMap.mpr ⟨li, List.mem_range.mpr hli, ?_⟩
    refine List.mem_flatMap.mpr ⟨lj, List.mem_range.mpr hlj, ?_⟩
    simp only [iterA, total_dof, g1, g2, if_pos hkN, List.mem_append]
    left
    right
    simp
  · intro hk0
    refine List.mem_flatMap.mpr ⟨k, List.mem_range.mpr (by unfold L_tot; omega), ?_⟩
    refine List.mem_flatMap.mpr ⟨i, List.mem_range.mpr hi, ?_⟩
    refine List.mem_flatMap.mpr ⟨li, List.mem_range.mpr hli, ?_⟩
    refine List.mem_flatMap.mpr ⟨lj, List.mem_range.mpr hlj, ?_⟩
    simp only [iterA, total_dof, g2, if_pos hk0, List.mem_append]
    right
    simp

/-- On a diagonal position of the `(k, k)` moment block, a loop-body
increment list contributes exactly its collision increment, and only
when both local DOFs map to the given spatial DOF. -/
lemma incSumA_iterA_diag (inp : AssemblyInput) {i li lj v : ℕ} (k k' : ℕ)
    (hnv : 1 ≤ inp.num_vertices) (hi : i < n_elem inp) (hli : li < inp.dof_elem)
    (hlj : lj < inp.dof_elem) (hv : v < n_global inp) :
    incSumA (v + k * n_global inp) (v + k * n_global inp) (iterA inp k' i li lj)
      = if k' = k ∧ dofm inp i li = v ∧ dofm inp i lj = v
          then A_local inp k' i li lj else 0 := by
  rw [incSumA_iterA]
  have hrow : total_dof inp i li k' = v + k * n_global inp
      ↔ dofm inp i li = v ∧ k' = k := total_dof_eq_block hnv hi hli hv
  have hcol0 : total_dof inp i lj k' = v + k * n_global inp
      ↔ dofm inp i lj = v ∧ k' = k := total_dof_eq_block hnv hi hlj hv
  have hcol1 : total_dof inp i lj (k' + 1) = v + k * n_global inp
      ↔ dofm inp i lj = v ∧ k' + 1 = k := total_dof_eq_block hnv hi hlj hv
  have hcol2 : total_dof inp i lj (k' - 1) = v + k * n_global inp
      ↔ dofm inp i lj = v ∧ k' - 1 = k := total_dof_eq_block hnv hi hlj hv
  have hs1 : ¬ (k' ≠ L_tot inp - 1 ∧ total_dof inp i li k' = v + k * n_global inp
      ∧ total_dof inp i lj (k' + 1) = v + k * n_global inp) := by
    rintro ⟨-, h1, h2⟩
    have e1 := (hrow.mp h1).2
    have e2 := (hcol1.mp h2).2
    omega
  have hs2 : ¬ (k' ≠ 0 ∧ total_dof inp i li k' = v + k * n_global inp
      ∧ total_dof inp i lj (k' - 1) = v + k * n_global inp) := by
    rintro ⟨h0, h1, h2⟩
    have e1 := (hrow.mp h1).2
    have e2 := (hcol2.mp h2).2
    omega
  rw [if_neg hs1, if_neg hs2, add_zero, add_zero]
  by_cases h : k' = k ∧ dofm inp i li = v ∧ dofm inp i lj = v
  · rw [if_pos ⟨hrow.mpr ⟨h.2.1, h.1⟩, hcol0.mpr ⟨h.2.2, h.1⟩⟩, if_pos h]
  · rw [if_neg, if_neg h]
    rintro ⟨h1, h2⟩
    exact h ⟨(hrow.mp h1).2, (hrow.mp h1).1, (hcol0.mp h2).1⟩

/-- A double sum of guarded terms collapses to the unique local index
satisfying the guard. -/
lemma double_sum_diag (dof : ℕ) (p : ℕ → Prop) [DecidablePred p]
    (f : ℕ → ℕ → ℚ) (l0 : ℕ) (hl0 : l0 < dof) (hp : p l0)
    (huniq : ∀ l, l < dof → p l → l = l0) :
    (∑ li ∈ Finset.range dof, ∑ lj ∈ Finset.range dof,
        if p li ∧ p lj then f li lj else 0) = f l0 l0 := by
  rw [Finset.sum_eq_single l0]
  · rw [Finset.sum_eq_single l0]
    · rw [if_pos ⟨hp, hp⟩]
    · intro lj hlj hne
      rw [if_neg]
      rintro ⟨-, hplj⟩
      exact hne (huniq lj (Finset.mem_range.mp hlj) hplj)
    · intro habs
      exact absurd (Finset.mem_range.mpr hl0) habs
  · intro li hli hne
    apply Finset.sum_eq_zero
    intro lj hlj
    rw [if_neg]
    rintro ⟨hpli, -⟩
    exact hne (huniq li (Finset.mem_range.mp hli) hpli)
  · intro habs
    exact absurd (Finset.mem_range.mpr hl0) habs

/-- C2: for every moment `k ≤ N_max` and adjacent elements `i`, `i+1`,
the diagonal entry of the `(k, k)` moment block at their shared vertex
DOF `i+1` is the sum of the two elements' collision contributions
`(sigma_t - sigma_s[k]) * mass * h` (element `i` through its local pair
`(1,1)`, element `i+1` through `(0,0)`): accumulation is additive, never
an overwrite. -/
theorem collision_accumulation_C2 (inp : AssemblyInput) (k i : ℕ)
    (hdof : 2 ≤ inp.dof_elem) (hk : k ≤ inp.N_max) (hi : i + 1 < n_elem inp) :
    assembleA inp ((i + 1) + k * n_global inp) ((i + 1) + k * n_global inp)
      = (inp.sigma_t i - inp.sigma_s i k) * mass_matrix inp 1 1
          * (inp.nodes (i + 1) - inp.nodes i)
        + (inp.sigma_t (i + 1) - inp.sigma_s (i + 1) k) * mass_matrix inp 0 0
          * (inp.nodes (i + 1 + 1) - inp.nodes (i + 1)) := by
  have hnv : 1 ≤ inp.num_vertices := by
    unfold n_elem at hi
    omega
  have hvnv : i + 1 < inp.num_vertices := by
    unfold n_elem at hi
    omega
  have hv : i + 1 < n_global inp := by
    have hge : inp.num_vertices ≤ n_global inp := by
      unfold n_global num_global_dofs
      omega
    omega
  have hstep1 : assembleA inp ((i + 1) + k * n_global inp) ((i + 1) + k * n_global inp)
      = ∑ i' ∈ Finset.range (n_elem inp), ∑ li ∈ Finset.range inp.dof_elem,
          ∑ lj ∈ Finset.range inp.dof_elem,
            (if dofm inp i' li = i + 1 ∧ dofm inp i' lj = i + 1
              then A_local inp k i' li lj else 0) := by
    rw [assembleA_eq_sum]
    have hcongr : ∀ k' ∈ Finset.range (L_tot inp),
        (∑ i' ∈ Finset.range (n_elem inp), ∑ li ∈ Finset.range inp.dof_elem,
          ∑ lj ∈ Finset.range inp.dof_elem,
            incSumA ((i + 1) + k * n_global inp) ((i + 1) + k * n_global inp)
              (iterA inp k' i' li lj))
          = if k' = k then
              (∑ i' ∈ Finset.range (n_elem inp), ∑ li ∈ Finset.range inp.dof_elem,
                ∑ lj ∈ Finset.range inp.dof_elem,
                  (if dofm inp i' li = i + 1 ∧ dofm inp i' lj = i + 1
                    then A_local inp k i' li lj else 0))
            else 0 := by
      intro k' hk'
      by_cases hkk : k' = k
      · subst hkk
        rw [if_pos rfl]
        refine Finset.sum_congr rfl fun i' hi' => ?_
        refine Finset.sum_congr rfl fun li hli => ?_
        refine Finset.sum_congr rfl fun lj hlj => ?_
        rw [incSumA_iterA_diag inp k' k' hnv (Finset.mem_range.mp hi')
          (Finset.mem_range.mp hli) (Finset.mem_range.mp hlj) hv]
        by_cases hc : dofm inp i' li = i + 1 ∧ dofm inp i' lj = i + 1
        · rw [if_pos ⟨rfl, hc⟩, if_pos hc]
        · rw [if_neg (by tauto), if_neg hc]
      · rw [if_neg hkk]
        refine Finset.sum_eq_zero fun i' hi' => ?_
        refine Finset.sum_eq_zero fun li hli => ?_
        refine Finset.sum_eq_zero fun lj hlj => ?_
        rw [incSumA_iterA_diag inp k k' hnv (Finset.mem_range.mp hi')
          (Finset.mem_range.mp hli) (Finset.mem_range.mp hlj) hv]
        rw [if_neg]
        rintro ⟨h1, -⟩
        exact hkk h1
    rw [Finset.sum_congr rfl hcongr, Finset.sum_ite_eq',
      if_pos (Finset.mem_range.mpr (by unfold L_tot; omega))]
  rw [hstep1]
  have hzero : ∀ i' ∈ Finset.range (n_elem inp), i' ∉ ({i, i + 1} : Finset ℕ) →
      (∑ li ∈ Finset.range inp.dof_elem, ∑ lj ∈ Finset.range inp.dof_elem,
        (if dofm inp i' li = i + 1 ∧ dofm inp i' lj = i + 1
          then A_local inp k i' li lj else 0)) = 0 := by
    intro i' hi' hnot
    refine Finset.sum_eq_zero fun li hli => ?_
    refine Finset.sum_eq_zero fun lj hlj => ?_
    rw [if_neg]
    rintro ⟨h1, -⟩
    rw [dofm, dof_matrix_entry_eq_vertex (Finset.mem_range.mp hli) hvnv] at h1
    simp only [Finset.mem_insert, Finset.mem_singleton] at hnot
    omega
  have hsubset : ({i, i + 1} : Finset ℕ) ⊆ Finset.range (n_elem inp) := by
    intro x hx
    simp only [Finset.mem_insert, Finset.mem_singleton] at hx
    refine Finset.mem_range.mpr (by omega)
  rw [← Finset.sum_subset hsubset hzero]
  rw [Finset.sum_insert (by simp), Finset.sum_singleton]
  have hFi : (∑ li ∈ Finset.range inp.dof_elem, ∑ lj ∈ Finset.range inp.dof_elem,
      (if dofm inp i li = i + 1 ∧ dofm inp i lj = i + 1
        then A_local inp k i li lj else 0)) = A_local inp k i 1 1 := by
    refine double_sum_diag inp.dof_elem _ _ 1 (by omega) rfl ?_
    intro l hl hpl
    rw [dofm, dof_matrix_entry_eq_vertex hl hvnv] at hpl
    omega
  have hFi1 : (∑ li ∈ Finset.range inp.dof_elem, ∑ lj ∈ Finset.range inp.dof_elem,
      (if dofm inp (i + 1) li = i + 1 ∧ dofm inp (i + 1) lj = i + 1
        then A_local inp k (i + 1) li lj else 0)) = A_local inp k (i + 1) 0 0 := by
    refine double_sum_diag inp.dof_elem _ _ 0 (by omega) rfl ?_
    intro l hl hpl
    rw [dofm, dof_matrix_entry_eq_vertex hl hvnv] at hpl
    omega
  rw [hFi, hFi1]
  rfl

/-- A concrete two-node, one-element input with `N_max = 1`, two local
DOFs, and zero material data (`sigma_t = sigma_s = q = 0`); the basis
tabulation is the degree-1 Lagrange basis at the reference midpoint with
unit weight, whose streaming matrix is nonzero. -/
def zeroMaterialInput : AssemblyInput where
  num_vertices := 2
  nodes := fun i => (i : ℚ)
  sigma_t := fun _ => 0
  sigma_s := fun _ _ => 0
  q := fun _ _ _ => 0
  N_max := 1
  dof_elem := 2
  nq := 1
  weights := fun _ => 1
  phi := fun _ _ => 1 / 2
  dphi := fun _ l => if l = 0 then -1 else 1

/-- C6 counterexample: with every cross-section and source of the single
element equal to zero, the assembly loop still adds a nonzero streaming
increment: the assembled `A` has `-1/2` at row `total_dof(0,0,0) = 0`,
column `total_dof(0,0,1) = 2` (the `(0,1)` moment block), because the
streaming term does not depend on the material data. -/
theorem zero_material_counterexample_C6 :
    (∀ e, zeroMaterialInput.sigma_t e = 0)
    ∧ (∀ e k, zeroMaterialInput.sigma_s e k = 0)
    ∧ (∀ e k l, zeroMaterialInput.q e k l = 0)
    ∧ assembleA zeroMaterialInput 0 2 ≠ 0 := by
  refine ⟨fun _ => rfl, fun _ _ => rfl, fun _ _ _ => rfl, ?_⟩
  have hval : assembleA zeroMaterialInput 0 2 = -1 / 2 := by
    rw [assembleA_eq_sum]
    norm_num [zeroMaterialInput, L_tot, n_elem, Finset.sum_range_succ,
      incSumA_iterA, total_dof, dofm, dof_matrix_entry, n_global,
      num_global_dofs, A_local, local_streaming, mass_matrix, h_elem]
  rw [hval]
  norm_num

/-- C6 (amended): with zero material data for an element, the element's
collision increments into `A` and all of its source increments into `b`
vanish for every moment; its streaming increments are unaffected by the
material data and in general remain nonzero. -/
theorem zero_material_C6_amended (inp : AssemblyInput) (k i : ℕ)
    (h1 : inp.sigma_t i = 0) (h2 : ∀ k', inp.sigma_s i k' = 0)
    (h3 : ∀ k' l, inp.q i k' l = 0) :
    (∀ li lj, A_local inp k i li lj = 0)
    ∧ (∀ li k', s_local inp i li k' = 0) := by
  constructor
  · intro li lj
    unfold A_local
    rw [h1, h2]
    ring
  · intro li k'
    unfold s_local
    refine Finset.sum_eq_zero fun lj hlj => ?_
    rw [h3]
    ring

/-- Witness for the amended C6 at the concrete zero-material input. -/
theorem zero_material_C6_amended_witness :
    A_local zeroMaterialInput 0 0 0 0 = 0 ∧ s_local zeroMaterialInput 0 0 0 = 0 :=
  ⟨(zero_material_C6_amended zeroMaterialInput 0 0 rfl (fun _ => rfl)
      (fun _ _ => rfl)).1 0 0,
   (zero_material_C6_amended zeroMaterialInput 0 0 rfl (fun _ => rfl)
      (fun _ _ => rfl)).2 0 0⟩

/-- A concrete three-node, two-element input with `N_max = 1`, isotropic
scattering, unit total cross-section and unit isotropic source, on the
degree-1 midpoint tabulation. -/
def exInput : AssemblyInput where
  num_vertices := 3
  nodes := fun i => (i : ℚ)
  sigma_t := fun _ => 1
  sigma_s := fun _ k => if k = 0 then 1 / 2 else 0
  q := fun _ k _ => if k = 0 then 1 else 0
  N_max := 1
  dof_elem := 2
  nq := 1
  weights := fun _ => 1
  phi := fun _ _ => 1 / 2
  dphi := fun _ l => if l = 0 then -1 else 1

/-- Witness for C1 at the concrete input: the `k = 0` body emits its
`(0, 1)`-block streaming increment into the assembly stream. -/
theorem streaming_scatter_C1_witness :
    (dofm exInput 0 0 + 0 * n_global exInput,
      dofm exInput 0 0 + (0 + 1) * n_global exInput,
      local_streaming exInput 0 0 * ((0 : ℚ) + 1) / (2 * (0 : ℚ) + 1))
      ∈ updatesA exInput :=
  (streaming_scatter_C1 exInput 0 0 0 0 (by decide) (by decide) (by decide)
    (by decide)).2.1 (by decide)

/-- Witness for the amended C3 at `dof_elem = 3`, `n_vertices = 4`. -/
theorem dof_mapping_C3_witness :
    num_global_dofs 3 4 = 4 + (4 - 1) * (3 - 2)
    ∧ dof_matrix_entry 3 4 1 2 = 4 + 1 * (3 - 2) + (2 - 2) :=
  ⟨(dof_mapping_C3 3 4 (by norm_num) (by norm_num)).2.2.1,
   (dof_mapping_C3 3 4 (by norm_num) (by norm_num)).2.1 1 2 (by norm_num)
     (by norm_num)⟩

/-- Witness for C2 at the concrete input: the shared vertex DOF 1 of
elements 0 and 1, moment block `(1, 1)`. -/
theorem collision_accumulation_C2_witness :
    assembleA exInput (1 + 1 * n_global exInput) (1 + 1 * n_global exInput)
      = (exInput.sigma_t 0 - exInput.sigma_s 0 1) * mass_matrix exInput 1 1
          * (exInput.nodes 1 - exInput.nodes 0)
        + (exInput.sigma_t 1 - exInput.sigma_s 1 1) * mass_matrix exInput 0 0
          * (exInput.nodes 2 - exInput.nodes 1) :=
  collision_accumulation_C2 exInput 1 0 (by decide) (by decide) (by decide)

/-!  Lemmas about the boundary-condition folds.  -/

lemma set_entry_apply (A : Mat) (row col : ℕ) (v : ℚ) (r c : ℕ) :
    set_entry A row col v r c = if r = row ∧ c = col then v else A r c := rfl

lemma set_row_zero_apply (A : Mat) (row r c : ℕ) :
    set_row_zero A row r c = if r = row then 0 else A r c := rfl

lemma set_vec_apply (b : Vec) (row : ℕ) (v : ℚ) (r : ℕ) :
    set_vec b row v r = if r = row then v else b r := rfl

lemma mem_odd_moments {k L : ℕ} : k ∈ odd_moments L ↔ k < L ∧ k % 2 = 1 := by
  unfold odd_moments
  rw [List.mem_filter, List.mem_range]
  simp

/-- One reflective step does not change rows other than its two target rows. -/
lemma reflStep_frame (ng ld rd : ℕ) (st : Mat × Vec) (k : ℕ) {r : ℕ}
    (h1 : r ≠ ld + k * ng) (h2 : r ≠ rd + k * ng) :
    (∀ c, (reflStep ng ld rd st k).1 r c = st.1 r c)
    ∧ (reflStep ng ld rd st k).2 r = st.2 r := by
  constructor
  · intro c
    show set_entry (set_row_zero (set_entry (set_row_zero st.1 (ld + k * ng))
        (ld + k * ng) (ld + k * ng) 1) (rd + k * ng)) (rd + k * ng) (rd + k * ng) 1 r c
      = st.1 r c
    rw [set_entry_apply, if_neg (fun hc => h2 hc.1), set_row_zero_apply, if_neg h2,
      set_entry_apply, if_neg (fun hc => h1 hc.1), set_row_zero_apply, if_neg h1]
  · show set_vec (set_vec st.2 (ld + k * ng) 0) (rd + k * ng) 0 r = st.2 r
    rw [set_vec_apply, if_neg h2, set_vec_apply, if_neg h1]

/-- One reflective step makes each of its two target rows the identity
row and zeroes its `b` entries. -/
lemma reflStep_sets (ng ld rd : ℕ) (st : Mat × Vec) (k d : ℕ)
    (hd : d = ld ∨ d = rd) :
    (∀ c, (reflStep ng ld rd st k).1 (d + k * ng) c
        = if c = d + k * ng then 1 else 0)
    ∧ (reflStep ng ld rd st k).2 (d + k * ng) = 0 := by
  constructor
  · intro c
    show set_entry (set_row_zero (set_entry (set_row_zero st.1 (ld + k * ng))
        (ld + k * ng) (ld + k * ng) 1) (rd + k * ng)) (rd + k * ng) (rd + k * ng) 1
        (d + k * ng) c
      = if c = d + k * ng then 1 else 0
    rcases hd with hd | hd
    · subst hd
      by_cases hlr : d + k * ng = rd + k * ng
      · rw [hlr]
        rw [set_entry_apply]
        by_cases hc : c = rd + k * ng
        · rw [if_pos ⟨rfl, hc⟩, if_pos hc]
        · rw [if_neg (fun h => hc h.2), set_row_zero_apply, if_pos rfl, if_neg hc]
      · rw [set_entry_apply, if_neg (fun h => hlr h.1), set_row_zero_apply,
          if_neg hlr, set_entry_apply, set_row_zero_apply]
        by_cases hc : c = d + k * ng
        · rw [if_pos ⟨rfl, hc⟩, if_pos hc]
        · rw [if_neg (fun h => hc h.2), if_pos rfl, if_neg hc]
    · subst hd
      rw [set_entry_apply]
      by_cases hc : c = d + k * ng
      · rw [if_pos ⟨rfl, hc⟩, if_pos hc]
      · rw [if_neg (fun h => hc h.2), set_row_zero_apply, if_pos rfl, if_neg hc]
  · show set_vec (set_vec st.2 (ld + k * ng) 0) (rd + k * ng) 0 (d + k * ng) = 0
    rcases hd with hd | hd
    · subst hd
      by_cases hlr : d + k * ng = rd + k * ng
      · rw [set_vec_apply, if_pos hlr]
      · rw [set_vec_apply, if_neg hlr, set_vec_apply, if_pos rfl]
    · subst hd
      rw [set_vec_apply, if_pos rfl]

/-- The reflective fold does not change rows it never targets. -/
lemma refl_fold_frame (ng ld rd : ℕ) (ks : List ℕ) (st : Mat × Vec) {r : ℕ}
    (h : ∀ k ∈ ks, r ≠ ld + k * ng ∧ r ≠ rd + k * ng) :
    (∀ c, (ks.foldl (reflStep ng ld rd) st).1 r c = st.1 r c)
    ∧ (ks.foldl (reflStep ng ld rd) st).2 r = st.2 r := by
  induction ks generalizing st with
  | nil => exact ⟨fun c => rfl, rfl⟩
  | cons a t ih =>
    have ha := h a (List.mem_cons_self a t)
    have hstep := reflStep_frame ng ld rd st a ha.1 ha.2
    have ht := ih (reflStep ng ld rd st a) fun k hk => h k (List.mem_cons_of_mem a hk)
    exact ⟨fun c => (ht.1 c).trans (hstep.1 c), ht.2.trans hstep.2⟩

/-- After the reflective fold, every targeted boundary row is the
identity row and its `b` entry is zero. -/
lemma refl_fold_sets (ng ld rd : ℕ) (hng : 0 < ng) (hld : ld < ng) (hrd : rd < ng)
    (ks : List ℕ) (st : Mat × Vec) (k d : ℕ) (hd : d = ld ∨ d = rd)
    (hk : k ∈ ks) :
    (∀ c, (ks.foldl (reflStep ng ld rd) st).1 (d + k * ng) c
        = if c = d + k * ng then 1 else 0)
    ∧ (ks.foldl (reflStep ng ld rd) st).2 (d + k * ng) = 0 := by
  induction ks generalizing st with
  | nil => cases hk
  | cons a t ih =>
    by_cases hkt : k ∈ t
    · exact ih (reflStep ng ld rd st a) hkt
    · have hka : a = k := by
        rcases List.mem_cons.mp hk with h | h
        · exact h.symm
        · exact absurd h hkt
      subst hka
      have hdlt : d < ng := by rcases hd with h | h <;> omega
      have hstep := reflStep_sets ng ld rd st a d hd
      have hframe : ∀ k' ∈ t, d + a * ng ≠ ld + k' * ng ∧ d + a * ng ≠ rd + k' * ng := by
        intro k' hk'
        have hka' : k' ≠ a := fun h => hkt (h ▸ hk')
        constructor
        · intro heq
          exact hka' (block_eq hng hdlt hld heq).2.symm
        · intro heq
          exact hka' (block_eq hng hdlt hrd heq).2.symm
      have ht := refl_fold_frame ng ld rd t (reflStep ng ld rd st a) hframe
      exact ⟨fun c => (ht.1 c).trans (hstep.1 c), ht.2.trans hstep.2⟩

/-- C4: for every odd moment `k ≤ N_max`, after assembly with
`bc = "reflective"` the row of `A` at the boundary spatial DOF (leftmost
vertex 0 or rightmost vertex `n_vertices - 1`) of that moment block is
all zero except a unit diagonal entry, and the matching entry of `b` is
zero. -/
theorem reflective_bc_C4 (inp : AssemblyInput) (gn gw : ℕ → ℚ) (k d : ℕ)
    (hodd : inp.N_max % 2 = 1) (hnv : 2 ≤ inp.num_vertices)
    (hk : k % 2 = 1) (hkN : k ≤ inp.N_max)
    (hd : d = 0 ∨ d = inp.num_vertices - 1) :
    ∃ A' b', assemble_matrix inp "reflective" gn gw = Except.ok (A', b')
      ∧ (∀ c, A' (d + k * n_global inp) c
          = if c = d + k * n_global inp then 1 else 0)
      ∧ b' (d + k * n_global inp) = 0 := by
  have hok : assemble_matrix inp "reflective" gn gw
      = Except.ok (apply_reflective_bc (assembleA inp) (assembleb inp)
          (n_global inp) (L_tot inp) 0 (inp.num_vertices - 1)) := by
    unfold assemble_matrix
    rw [if_neg (by omega), if_pos rfl]
  have hng : 0 < n_global inp := n_global_pos (by omega)
  have hrdlt : inp.num_vertices - 1 < n_global inp := by
    have : inp.num_vertices ≤ n_global inp := by
      unfold n_global num_global_dofs
      omega
    omega
  have hmem : k ∈ odd_moments (L_tot inp) :=
    mem_odd_moments.mpr ⟨by unfold L_tot; omega, hk⟩
  have hmain := refl_fold_sets (n_global inp) 0 (inp.num_vertices - 1) hng hng
    hrdlt (odd_moments (L_tot inp)) (assembleA inp, assembleb inp) k d hd hmem
  exact ⟨_, _, hok, hmain.1, hmain.2⟩

/-- Witness for C4: the left boundary, moment `k = 1`, of the concrete
three-node input. -/
theorem reflective_bc_C4_witness :
    ∃ A' b', assemble_matrix exInput "reflective" (fun _ => 0) (fun _ => 0)
        = Except.ok (A', b')
      ∧ (∀ c, A' (0 + 1 * n_global exInput) c
          = if c = 0 + 1 * n_global exInput then 1 else 0)
      ∧ b' (0 + 1 * n_global exInput) = 0 :=
  reflective_bc_C4 exInput (fun _ => 0) (fun _ => 0) 1 0 (by decide) (by decide)
    (by decide) (by decide) (Or.inl rfl)

/-- The Marshak inner loop does not change entries it never writes. -/
lemma marshak_inner_frame (coeffL coeffR : ℕ → ℕ → ℚ) (ng ld rd ei : ℕ)
    (A : Mat) (ls : List ℕ) {r c : ℕ}
    (h : ∀ l ∈ ls, ¬(r = ld + ei * ng ∧ c = ld + l * ng)
        ∧ ¬(r = rd + ei * ng ∧ c = rd + l * ng)) :
    marshak_inner coeffL coeffR ng ld rd ei A ls r c = A r c := by
  induction ls generalizing A with
  | nil => rfl
  | cons a t ih =>
    have ha := h a (List.mem_cons_self a t)
    have hstep :
        set_entry (set_entry A (ld + ei * ng) (ld + a * ng)
            (coeffL ei a * (2 * (a : ℚ) + 1)))
          (rd + ei * ng) (rd + a * ng) (coeffR ei a * (2 * (a : ℚ) + 1)) r c
          = A r c := by
      rw [set_entry_apply, if_neg ha.2, set_entry_apply, if_neg ha.1]
    have ht := ih (set_entry (set_entry A (ld + ei * ng) (ld + a * ng)
        (coeffL ei a * (2 * (a : ℚ) + 1)))
      (rd + ei * ng) (rd + a * ng) (coeffR ei a * (2 * (a : ℚ) + 1)))
      (fun l hl => h l (List.mem_cons_of_mem a hl))
    exact ht.trans hstep

/-- The Marshak inner loop leaves the left enforcement row holding
`coeffL[ei, l] * (2l+1)` at the `l`-th boundary column. -/
lemma marshak_inner_sets_left (coeffL coeffR : ℕ → ℕ → ℚ) (ng ld rd ei : ℕ)
    (hng : 0 < ng) (hld : ld < ng) (hrd : rd < ng) (hne : ld ≠ rd)
    (A : Mat) (ls : List ℕ) (l : ℕ) (hl : l ∈ ls) :
    marshak_inner coeffL coeffR ng ld rd ei A ls (ld + ei * ng) (ld + l * ng)
      = coeffL ei l * (2 * (l : ℚ) + 1) := by
  induction ls generalizing A with
  | nil => cases hl
  | cons a t ih =>
    by_cases hlt : l ∈ t
    · exact ih _ hlt
    · have hla : a = l := by
        rcases List.mem_cons.mp hl with h | h
        · exact h.symm
        · exact absurd h hlt
      subst hla
      have hrowne : ld + ei * ng ≠ rd + ei * ng := fun h =>
        hne (block_eq hng hld hrd h).1
      have hstep :
          set_entry (set_entry A (ld + ei * ng) (ld + a * ng)
              (coeffL ei a * (2 * (a : ℚ) + 1)))
            (rd + ei * ng) (rd + a * ng) (coeffR ei a * (2 * (a : ℚ) + 1))
            (ld + ei * ng) (ld + a * ng)
            = coeffL ei a * (2 * (a : ℚ) + 1) := by
        rw [set_entry_apply, if_neg (fun h => hrowne h.1), set_entry_apply,
          if_pos ⟨rfl, rfl⟩]
      have hframe : ∀ l' ∈ t,
          ¬(ld + ei * ng = ld + ei * ng ∧ ld + a * ng = ld + l' * ng)
          ∧ ¬(ld + ei * ng = rd + ei * ng ∧ ld + a * ng = rd + l' * ng) := by
        intro l' hl'
        have hla' : l' ≠ a := fun h => hlt (h ▸ hl')
        constructor
        · rintro ⟨-, hcol⟩
          exact hla' (block_eq hng hld hld hcol).2.symm
        · rintro ⟨hrow, -⟩
          exact hrowne hrow
      exact (marshak_inner_frame coeffL coeffR ng ld rd ei _ t hframe).trans hstep

/-- The Marshak inner loop leaves the right enforcement row holding
`coeffR[ei, l] * (2l+1)` at the `l`-th boundary column. -/
lemma marshak_inner_sets_right (coeffL coeffR : ℕ → ℕ → ℚ) (ng ld rd ei : ℕ)
    (hng : 0 < ng) (hld : ld < ng) (hrd : rd < ng)
    (A : Mat) (ls : List ℕ) (l : ℕ) (hl : l ∈ ls) :
    marshak_inner coeffL coeffR ng ld rd ei A ls (rd + ei * ng) (rd + l * ng)
      = coeffR ei l * (2 * (l : ℚ) + 1) := by
  induction ls generalizing A with
  | nil => cases hl
  | cons a t ih =>
    by_cases hlt : l ∈ t
    · exact ih _ hlt
    · have hla : a = l := by
        rcases List.mem_cons.mp hl with h | h
        · exact h.symm
        · exact absurd h hlt
      subst hla
      have hstep :
          set_entry (set_entry A (ld + ei * ng) (ld + a * ng)
              (coeffL ei a * (2 * (a : ℚ) + 1)))
            (rd + ei * ng) (rd + a * ng) (coeffR ei a * (2 * (a : ℚ) + 1))
            (rd + ei * ng) (rd + a * ng)
            = coeffR ei a * (2 * (a : ℚ) + 1) := by
        rw [set_entry_apply, if_pos ⟨rfl, rfl⟩]
      have hframe : ∀ l' ∈ t,
          ¬(rd + ei * ng = ld + ei * ng ∧ rd + a * ng = ld + l' * ng)
          ∧ ¬(rd + ei * ng = rd + ei * ng ∧ rd + a * ng = rd + l' * ng) := by
        intro l' hl'
        have hla' : l' ≠ a := fun h => hlt (h ▸ hl')
        constructor
        · rintro ⟨-, hcol⟩
          exact hla' (block_eq hng hrd hld hcol).2.symm
        · rintro ⟨-, hcol⟩
          exact hla' (block_eq hng hrd hrd hcol).2.symm
      exact (marshak_inner_frame coeffL coeffR ng ld rd ei _ t hframe).trans hstep

/-- One Marshak step does not change rows other than its two enforcement
rows. -/
lemma marshakStep_frame (coeffL coeffR : ℕ → ℕ → ℚ) (ng L ld rd : ℕ)
    (st : Mat × Vec) (ei : ℕ) {r : ℕ}
    (h1 : r ≠ ld + ei * ng) (h2 : r ≠ rd + ei * ng) :
    (∀ c, (marshakStep coeffL coeffR ng L ld rd st ei).1 r c = st.1 r c)
    ∧ (marshakStep coeffL coeffR ng L ld rd st ei).2 r = st.2 r := by
  constructor
  · intro c
    show marshak_inner coeffL coeffR ng ld rd ei
        (set_row_zero (set_row_zero st.1 (ld + ei * ng)) (rd + ei * ng))
        (List.range L) r c = st.1 r c
    rw [marshak_inner_frame coeffL coeffR ng ld rd ei _ _
      (fun l _ => ⟨fun hc => h1 hc.1, fun hc => h2 hc.1⟩)]
    rw [set_row_zero_apply, if_neg h2, set_row_zero_apply, if_neg h1]
  · show set_vec (set_vec st.2 (ld + ei * ng) 0) (rd + ei * ng) 0 r = st.2 r
    rw [set_vec_apply, if_neg h2, set_vec_apply, if_neg h1]

/-- After one Marshak step, the left enforcement row holds exactly the
scaled projection coefficients at the boundary columns, is zero
elsewhere, and its `b` entry is zero. -/
lemma marshakStep_left (coeffL coeffR : ℕ → ℕ → ℚ) (ng L ld rd : ℕ)
    (hng : 0 < ng) (hld : ld < ng) (hrd : rd < ng) (hne : ld ≠ rd)
    (st : Mat × Vec) (ei : ℕ) :
    (∀ l, l < L → (marshakStep coeffL coeffR ng L ld rd st ei).1
        (ld + ei * ng) (ld + l * ng) = coeffL ei l * (2 * (l : ℚ) + 1))
    ∧ (∀ col, (∀ l, l < L → col ≠ ld + l * ng) →
        (marshakStep coeffL coeffR ng L ld rd st ei).1 (ld + ei * ng) col = 0)
    ∧ (marshakStep coeffL coeffR ng L ld rd st ei).2 (ld + ei * ng) = 0 := by
  have hrowne : ld + ei * ng ≠ rd + ei * ng := fun h =>
    hne (block_eq hng hld hrd h).1
  refine ⟨?_, ?_, ?_⟩
  · intro l hl
    exact marshak_inner_sets_left coeffL coeffR ng ld rd ei hng hld hrd hne _
      (List.range L) l (List.mem_range.mpr hl)
  · intro col hcol
    show marshak_inner coeffL coeffR ng ld rd ei
        (set_row_zero (set_row_zero st.1 (ld + ei * ng)) (rd + ei * ng))
        (List.range L) (ld + ei * ng) col = 0
    rw [marshak_inner_frame coeffL coeffR ng ld rd ei _ _
      (fun l hl => ⟨fun hc => hcol l (List.mem_range.mp hl) hc.2,
        fun hc => hrowne hc.1⟩)]
    rw [set_row_zero_apply, if_neg hrowne, set_row_zero_apply, if_pos rfl]
  · show set_vec (set_vec st.2 (ld + ei * ng) 0) (rd + ei * ng) 0
        (ld + ei * ng) = 0
    rw [set_vec_apply, if_neg hrowne, set_vec_apply, if_pos rfl]

/-- After one Marshak step, the right enforcement row holds exactly the
scaled projection coefficients at the boundary columns, is zero
elsewhere, and its `b` entry is zero. -/
lemma marshakStep_right (coeffL coeffR : ℕ → ℕ → ℚ) (ng L ld rd : ℕ)
    (hng : 0 < ng) (hld : ld < ng) (hrd : rd < ng) (hne : ld ≠ rd)
    (st : Mat × Vec) (ei : ℕ) :
    (∀ l, l < L → (marshakStep coeffL coeffR ng L ld rd st ei).1
        (rd + ei * ng) (rd + l * ng) = coeffR ei l * (2 * (l : ℚ) + 1))
    ∧ (∀ col, (∀ l, l < L → col ≠ rd + l * ng) →
        (marshakStep coeffL coeffR ng L ld rd st ei).1 (rd + ei * ng) col = 0)
    ∧ (marshakStep coeffL coeffR ng L ld rd st ei).2 (rd + ei * ng) = 0 := by
  have hrowne : rd + ei * ng ≠ ld + ei * ng := fun h =>
    hne (block_eq hng hrd hld h).1.symm
  refine ⟨?_, ?_, ?_⟩
  · intro l hl
    exact marshak_inner_sets_right coeffL coeffR ng ld rd ei hng hld hrd _
      (List.range L) l (List.mem_range.mpr hl)
  · intro col hcol
    show marshak_inner coeffL coeffR ng ld rd ei
        (set_row_zero (set_row_zero st.1 (ld + ei * ng)) (rd + ei * ng))
        (List.range L) (rd + ei * ng) col = 0
    rw [marshak_inner_frame coeffL coeffR ng ld rd ei _ _
      (fun l hl => ⟨fun hc => hrowne hc.1,
        fun hc => hcol l (List.mem_range.mp hl) hc.2⟩)]
    rw [set_row_zero_apply, if_pos rfl]
  · show set_vec (set_vec st.2 (ld + ei * ng) 0) (rd + ei * ng) 0
        (rd + ei * ng) = 0
    rw [set_vec_apply, if_pos rfl]

/-- The Marshak fold does not change rows it never targets. -/
lemma marshak_fold_frame (coeffL coeffR : ℕ → ℕ → ℚ) (ng L ld rd : ℕ)
    (ks : List ℕ) (st : Mat × Vec) {r : ℕ}
    (h : ∀ k ∈ ks, r ≠ ld + k * ng ∧ r ≠ rd + k * ng) :
    (∀ c, (ks.foldl (marshakStep coeffL coeffR ng L ld rd) st).1 r c = st.1 r c)
    ∧ (ks.foldl (marshakStep coeffL coeffR ng L ld rd) st).2 r = st.2 r := by
  induction ks generalizing st with
  | nil => exact ⟨fun c => rfl, rfl⟩
  | cons a t ih =>
    have ha := h a (List.mem_cons_self a t)
    have hstep := marshakStep_frame coeffL coeffR ng L ld rd st a ha.1 ha.2
    have ht := ih (marshakStep coeffL coeffR ng L ld rd st a)
      fun k hk => h k (List.mem_cons_of_mem a hk)
    exact ⟨fun c => (ht.1 c).trans (hstep.1 c), ht.2.trans hstep.2⟩

/-- After the Marshak fold, a targeted left enforcement row has its
final Marshak form. -/
lemma marshak_fold_left (coeffL coeffR : ℕ → ℕ → ℚ) (ng L ld rd : ℕ)
    (hng : 0 < ng) (hld : ld < ng) (hrd : rd < ng) (hne : ld ≠ rd)
    (ks : List ℕ) (st : Mat × Vec) (ei : ℕ) (hei : ei ∈ ks) :
    (∀ l, l < L → (ks.foldl (marshakStep coeffL coeffR ng L ld rd) st).1
        (ld + ei * ng) (ld + l * ng) = coeffL ei l * (2 * (l : ℚ) + 1))
    ∧ (∀ col, (∀ l, l < L → col ≠ ld + l * ng) →
        (ks.foldl (marshakStep coeffL coeffR ng L ld rd) st).1 (ld + ei * ng) col = 0)
    ∧ (ks.foldl (marshakStep coeffL coeffR ng L ld rd) st).2 (ld + ei * ng) = 0 := by
  induction ks generalizing st with
  | nil => cases hei
  | cons a t ih =>
    by_cases het : ei ∈ t
    · exact ih (marshakStep coeffL coeffR ng L ld rd st a) het
    · have hea : a = ei := by
        rcases List.mem_cons.mp hei with h | h
        · exact h.symm
        · exact absurd h het
      subst hea
      have hstep := marshakStep_left coeffL coeffR ng L ld rd hng hld hrd hne st a
      have hframe : ∀ k' ∈ t, ld + a * ng ≠ ld + k' * ng ∧ ld + a * ng ≠ rd + k' * ng := by
        intro k' hk'
        have hka' : k' ≠ a := fun h => het (h ▸ hk')
        constructor
        · intro heq
          exact hka' (block_eq hng hld hld heq).2.symm
        · intro heq
          exact hka' (block_eq hng hld hrd heq).2.symm
      have ht := marshak_fold_frame coeffL coeffR ng L ld rd t
        (marshakStep coeffL coeffR ng L ld rd st a) hframe
      refine ⟨fun l hl => (ht.1 _).trans (hstep.1 l hl),
        fun col hcol => (ht.1 _).trans (hstep.2.1 col hcol),
        ht.2.trans hstep.2.2⟩

/-- After the Marshak fold, a targeted right enforcement row has its
final Marshak form. -/
lemma marshak_fold_right (coeffL coeffR : ℕ → ℕ → ℚ) (ng L ld rd : ℕ)
    (hng : 0 < ng) (hld : ld < ng) (hrd : rd < ng) (hne : ld ≠ rd)
    (ks : List ℕ) (st : Mat × Vec) (ei : ℕ) (hei : ei ∈ ks) :
    (∀ l, l < L → (ks.foldl (marshakStep coeffL coeffR ng L ld rd) st).1
        (rd + ei * ng) (rd + l * ng) = coeffR ei l * (2 * (l : ℚ) + 1))
    ∧ (∀ col, (∀ l, l < L → col ≠ rd + l * ng) →
        (ks.foldl (marshakStep coeffL coeffR ng L ld rd) st).1 (rd + ei * ng) col = 0)
    ∧ (ks.foldl (marshakStep coeffL coeffR ng L ld rd) st).2 (rd + ei * ng) = 0 := by
  induction ks generalizing st with
  | nil => cases hei
  | cons a t ih =>
    by_cases het : ei ∈ t
    · exact ih (marshakStep coeffL coeffR ng L ld rd st a) het
    · have hea : a = ei := by
        rcases List.mem_cons.mp hei with h | h
        · exact h.symm
        · exact absurd h het
      subst hea
      have hstep := marshakStep_right coeffL coeffR ng L ld rd hng hld hrd hne st a
      have hframe : ∀ k' ∈ t, rd + a * ng ≠ ld + k' * ng ∧ rd + a * ng ≠ rd + k' * ng := by
        intro k' hk'
        have hka' : k' ≠ a := fun h => het (h ▸ hk')
        constructor
        · intro heq
          exact hka' (block_eq hng hrd hld heq).2.symm
        · intro heq
          exact hka' (block_eq hng hrd hrd heq).2.symm
      have ht := marshak_fold_frame coeffL coeffR ng L ld rd t
        (marshakStep coeffL coeffR ng L ld rd st a) hframe
      refine ⟨fun l hl => (ht.1 _).trans (hstep.1 l hl),
        fun col hcol => (ht.1 _).trans (hstep.2.1 col hcol),
        ht.2.trans hstep.2.2⟩

/-- C5: after assembly with `bc = "marshak"`, for every odd enforcement
moment `ei ≤ N_max` the enforcement row at each boundary holds, at the
`l`-th moment's boundary DOF, `projection_coeff[ei, l] * (2l+1)` with
the Legendre projector taken over `[0, 1]` on the left and `[-1, 0]` on
the right; the rest of the enforcement row is zero (it was zeroed
first), and `b` at both enforcement rows is zero. -/
theorem marshak_bc_C5 (inp : AssemblyInput) (gn gw : ℕ → ℚ) (ei : ℕ)
    (hodd : inp.N_max % 2 = 1) (hnv : 2 ≤ inp.num_vertices)
    (hei : ei % 2 = 1) (heiN : ei ≤ inp.N_max) :
    ∃ A' b', assemble_matrix inp "marshak" gn gw = Except.ok (A', b')
      ∧ (∀ l, l ≤ inp.N_max →
          A' (0 + ei * n_global inp) (0 + l * n_global inp)
            = legendre_coeff_matrix gn gw (L_tot inp) 0 1 ei l * (2 * (l : ℚ) + 1))
      ∧ (∀ col, (∀ l, l ≤ inp.N_max → col ≠ 0 + l * n_global inp) →
          A' (0 + ei * n_global inp) col = 0)
      ∧ (∀ l, l ≤ inp.N_max →
          A' ((inp.num_vertices - 1) + ei * n_global inp)
              ((inp.num_vertices - 1) + l * n_global inp)
            = legendre_coeff_matrix gn gw (L_tot inp) (-1) 0 ei l
                * (2 * (l : ℚ) + 1))
      ∧ (∀ col, (∀ l, l ≤ inp.N_max →
            col ≠ (inp.num_vertices - 1) + l * n_global inp) →
          A' ((inp.num_vertices - 1) + ei * n_global inp) col = 0)
      ∧ b' (0 + ei * n_global inp) = 0
      ∧ b' ((inp.num_vertices - 1) + ei * n_global inp) = 0 := by
  have hok : assemble_matrix inp "marshak" gn gw
      = Except.ok (apply_marshak_bc (assembleA inp) (assembleb inp)
          (n_global inp) (L_tot inp) 0 (inp.num_vertices - 1) gn gw) := by
    unfold assemble_matrix
    rw [if_neg (by omega), if_neg (by decide), if_pos rfl]
  have hng : 0 < n_global inp := n_global_pos (by omega)
  have hrdlt : inp.num_vertices - 1 < n_global inp := by
    have : inp.num_vertices ≤ n_global inp := by
      unfold n_global num_global_dofs
      omega
    omega
  have hne : 0 ≠ inp.num_vertices - 1 := by omega
  have hmem : ei ∈ odd_moments (L_tot inp) :=
    mem_odd_moments.mpr ⟨by unfold L_tot; omega, hei⟩
  have hL : ∀ l : ℕ, l ≤ inp.N_max ↔ l < L_tot inp := by
    intro l
    unfold L_tot
    omega
  have hleft := marshak_fold_left (legendre_coeff_matrix gn gw (L_tot inp) 0 1)
    (legendre_coeff_matrix gn gw (L_tot inp) (-1) 0) (n_global inp) (L_tot inp)
    0 (inp.num_vertices - 1) hng hng hrdlt hne (odd_moments (L_tot inp))
    (assembleA inp, assembleb inp) ei hmem
  have hright := marshak_fold_right (legendre_coeff_matrix gn gw (L_tot inp) 0 1)
    (legendre_coeff_matrix gn gw (L_tot inp) (-1) 0) (n_global inp) (L_tot inp)
    0 (inp.num_vertices - 1) hng hng hrdlt hne (odd_moments (L_tot inp))
    (assembleA inp, assembleb inp) ei hmem
  refine ⟨_, _, hok, ?_, ?_, ?_, ?_, ?_, ?_⟩
  · intro l hl
    exact hleft.1 l ((hL l).mp hl)
  · intro col hcol
    exact hleft.2.1 col fun l hl => hcol l ((hL l).mpr hl)
  · intro l hl
    exact hright.1 l ((hL l).mp hl)
  · intro col hcol
    exact hright.2.1 col fun l hl => hcol l ((hL l).mpr hl)
  · exact hleft.2.2
  · exact hright.2.2

/-- Witness for C5: enforcement moment 1 of the concrete three-node
input under Marshak boundary conditions. -/
theorem marshak_bc_C5_witness :
    ∃ A' b', assemble_matrix exInput "marshak" (fun _ => 0) (fun _ => 0)
        = Except.ok (A', b')
      ∧ (∀ l, l ≤ exInput.N_max →
          A' (0 + 1 * n_global exInput) (0 + l * n_global exInput)
            = legendre_coeff_matrix (fun _ => 0) (fun _ => 0) (L_tot exInput) 0 1 1 l
                * (2 * (l : ℚ) + 1))
      ∧ (∀ col, (∀ l, l ≤ exInput.N_max → col ≠ 0 + l * n_global exInput) →
          A' (0 + 1 * n_global exInput) col = 0)
      ∧ (∀ l, l ≤ exInput.N_max →
          A' ((exInput.num_vertices - 1) + 1 * n_global exInput)
              ((exInput.num_vertices - 1) + l * n_global exInput)
            = legendre_coeff_matrix (fun _ => 0) (fun _ => 0) (L_tot exInput) (-1) 0 1 l
                * (2 * (l : ℚ) + 1))
      ∧ (∀ col, (∀ l, l ≤ exInput.N_max →
            col ≠ (exInput.num_vertices - 1) + l * n_global exInput) →
          A' ((exInput.num_vertices - 1) + 1 * n_global exInput) col = 0)
      ∧ b' (0 + 1 * n_global exInput) = 0
      ∧ b' ((exInput.num_vertices - 1) + 1 * n_global exInput) = 0 :=
  marshak_bc_C5 exInput (fun _ => 0) (fun _ => 0) 1 (by decide) (by decide)
    (by decide) (by decide)

/-- C7: boundary-condition enforcement (either strategy) only modifies
rows of `A` and entries of `b` whose index is a boundary spatial DOF
(leftmost vertex 0 or rightmost vertex `n_vertices - 1`) offset into an
odd moment block; every other row keeps exactly the assembler's values. -/
theorem bc_frame_C7 (inp : AssemblyInput) (bc : String) (gn gw : ℕ → ℚ) (r : ℕ)
    (hodd : inp.N_max % 2 = 1)
    (hbc : bc = "reflective" ∨ bc = "marshak")
    (hr : ∀ k, k % 2 = 1 → k ≤ inp.N_max →
        r ≠ 0 + k * n_global inp ∧ r ≠ (inp.num_vertices - 1) + k * n_global inp) :
    ∃ A' b', assemble_matrix inp bc gn gw = Except.ok (A', b')
      ∧ (∀ c, A' r c = assembleA inp r c) ∧ b' r = assembleb inp r := by
  have hr' : ∀ k ∈ odd_moments (L_tot inp),
      r ≠ 0 + k * n_global inp ∧ r ≠ (inp.num_vertices - 1) + k * n_global inp := by
    intro k hk
    have hk' := mem_odd_moments.mp hk
    exact hr k hk'.2 (by have := hk'.1; unfold L_tot at this; omega)
  rcases hbc with hbc | hbc
  · subst hbc
    have hok : assemble_matrix inp "reflective" gn gw
        = Except.ok (apply_reflective_bc (assembleA inp) (assembleb inp)
            (n_global inp) (L_tot inp) 0 (inp.num_vertices - 1)) := by
      unfold assemble_matrix
      rw [if_neg (by omega), if_pos rfl]
    have hmain := refl_fold_frame (n_global inp) 0 (inp.num_vertices - 1)
      (odd_moments (L_tot inp)) (assembleA inp, assembleb inp) hr'
    exact ⟨_, _, hok, hmain.1, hmain.2⟩
  · subst hbc
    have hok : assemble_matrix inp "marshak" gn gw
        = Except.ok (apply_marshak_bc (assembleA inp) (assembleb inp)
            (n_global inp) (L_tot inp) 0 (inp.num_vertices - 1) gn gw) := by
      unfold assemble_matrix
      rw [if_neg (by omega), if_neg (by decide), if_pos rfl]
    have hmain := marshak_fold_frame (legendre_coeff_matrix gn gw (L_tot inp) 0 1)
      (legendre_coeff_matrix gn gw (L_tot inp) (-1) 0) (n_global inp)
      (L_tot inp) 0 (inp.num_vertices - 1) (odd_moments (L_tot inp))
      (assembleA inp, assembleb inp) hr'
    exact ⟨_, _, hok, hmain.1, hmain.2⟩

/-- Witness for C7: row 0 (an even-moment interior-of-spectrum row) of
the concrete three-node input is untouched by reflective enforcement. -/
theorem bc_frame_C7_witness :
    ∃ A' b', assemble_matrix exInput "reflective" (fun _ => 0) (fun _ => 0)
        = Except.ok (A', b')
      ∧ (∀ c, A' 0 c = assembleA exInput 0 c) ∧ b' 0 = assembleb exInput 0 :=
  bc_frame_C7 exInput "reflective" (fun _ => 0) (fun _ => 0) 0 (by decide)
    (Or.inl rfl)
    (by
      intro k h1 h2
      have h3 : n_global exInput = 3 := rfl
      have h4 : exInput.N_max = 1 := rfl
      have h5 : exInput.num_vertices = 3 := rfl
      rw [h3, h5]
      rw [h4] at h2
      omega)

/-- C8: for every even `N_max`, assembly is rejected up front with the
configuration error, for every input and boundary-condition choice; no
system is built. -/
theorem even_Nmax_rejected_C8 (inp : AssemblyInput) (bc : String)
    (gn gw : ℕ → ℚ) (h : inp.N_max % 2 = 0) :
    assemble_matrix inp bc gn gw
      = Except.error ("N_max must be odd for this implementation.") := by
  unfold assemble_matrix
  rw [if_pos h]

/-- A concrete input with even `N_max = 2`. -/
def evenNInput : AssemblyInput := { zeroMaterialInput with N_max := 2 }

/-- Witness for C8 at a concrete even-`N_max` input. -/
theorem even_Nmax_rejected_C8_witness :
    assemble_matrix evenNInput "reflective" (fun _ => 0) (fun _ => 0)
      = Except.error ("N_max must be odd for this implementation.") :=
  even_Nmax_rejected_C8 evenNInput "reflective" (fun _ => 0) (fun _ => 0) rfl

/-- C9: for every input with odd `N_max` and a `bc` value other than
"reflective" or "marshak", assembly is rejected with the unknown
boundary-condition configuration error. -/
theorem unknown_bc_rejected_C9 (inp : AssemblyInput) (bc : String)
    (gn gw : ℕ → ℚ) (hodd : inp.N_max % 2 = 1)
    (h1 : bc ≠ "reflective") (h2 : bc ≠ "marshak") :
    assemble_matrix inp bc gn gw
      = Except.error ("Unknown boundary condition: " ++ bc ++
          ". Supported: \x27reflective\x27, \x27marshak\x27.") := by
  unfold assemble_matrix
  rw [if_neg (by omega), if_neg h1, if_neg h2]

/-- Witness for C9 at the concrete input with `bc = "periodic"`. -/
theorem unknown_bc_rejected_C9_witness :
    assemble_matrix exInput "periodic" (fun _ => 0) (fun _ => 0)
      = Except.error ("Unknown boundary condition: " ++ "periodic" ++
          ". Supported: \x27reflective\x27, \x27marshak\x27.") :=
  unknown_bc_rejected_C9 exInput "periodic" (fun _ => 0) (fun _ => 0) rfl
    (by decide) (by decide)

/-- C10: for every moment count `L_max ≥ 1` and interval
`[a, b] ⊆ [-1, 1]`, the quadrature-built Legendre projection matrix is
symmetric: entry `(i, j)` equals entry `(j, i)` (for any Gauss-Legendre
tabulation `gn`, `gw` supplied by the quadrature provider). -/
theorem legendre_symmetric_C10 (gn gw : ℕ → ℚ) (Lmax : ℕ) (a b : ℚ) (i j : ℕ)
    (hL : 1 ≤ Lmax) (ha : -1 ≤ a) (hab : a ≤ b) (hb : b ≤ 1)
    (hi : i < Lmax) (hj : j < Lmax) :
    legendre_coeff_matrix gn gw Lmax a b i j
      = legendre_coeff_matrix gn gw Lmax a b j i := by
  unfold legendre_coeff_matrix
  refine Finset.sum_congr rfl fun m _ => ?_
  ring

/-- Witness for C10: `L_max = 2` over `[0, 1]` with the zero tabulation. -/
theorem legendre_symmetric_C10_witness :
    legendre_coeff_matrix (fun _ => 0) (fun _ => 0) 2 0 1 0 1
      = legendre_coeff_matrix (fun _ => 0) (fun _ => 0) 2 0 1 1 0 :=
  legendre_symmetric_C10 (fun _ => 0) (fun _ => 0) 2 0 1 0 1 (by norm_num)
    (by norm_num) (by norm_num) (by norm_num) (by norm_num) (by norm_num)

end BBax
